import Mathlib

/-!
Verification of `my_site/blog/views.py`.

The module is embedded shallowly: strings become `List Char`, the network and
the Django cache become explicit parameters (a fetch oracle, a feed value, a
cache state with an explicit clock), and Python exceptions that the code
swallows become `Option` results.  Every definition below is translated from
the source file; definitions written from the spec's words instead are marked
as such.
-/

/-! ## Text Normalizer: `clean_text`

`clean_text` performs, in order:
1. `re.sub('<[^<]+?>', '', text)` — remove markup tags,
2. `html.unescape(text)` — decode HTML entities,
3. `" ".join(text.split())` — collapse whitespace runs to single spaces.
-/

/-- Characters on which Python's `str.split()` (no argument) splits: ASCII
whitespace plus the no-break space U+00A0 (the only non-ASCII whitespace
produced by the entity table below). -/
def isSpaceCh (c : Char) : Bool :=
  c = ' ' || c = Char.ofNat 9 || c = Char.ofNat 10 || c = Char.ofNat 13 ||
  c = Char.ofNat 11 || c = Char.ofNat 12 || c = Char.ofNat 160

/-- Split a character list at every element satisfying `p`, dropping the
separators and keeping (possibly empty) segments — the splitting scheme shared
by `str.split` and `urllib`'s split on a separator character. -/
def splitP (p : Char → Bool) : List Char → List (List Char)
  | [] => [[]]
  | c :: rest =>
    if p c then [] :: splitP p rest
    else
      match splitP p rest with
      | [] => [[c]]
      | w :: ws => (c :: w) :: ws

/-- `sep.join(words)`: interleave a single separator character. -/
def joinSep (sep : Char) : List (List Char) → List Char
  | [] => []
  | [w] => w
  | w :: ws => w ++ sep :: joinSep sep ws

/-- `str.split()` with no argument: split on whitespace runs, discarding
empty segments. -/
def splitWs (s : List Char) : List (List Char) :=
  (splitP isSpaceCh s).filter (fun w => !w.isEmpty)

/-- `" ".join(text.split())`. -/
def collapseWs (s : List Char) : List Char :=
  joinSep ' ' (splitWs s)

/-- The named HTML entities the embedding of `html.unescape` decodes (the
ones the code's docstring names plus the angle-bracket pair); each entry is
the text after the ampersand and the decoded character.  `&nbsp;` decodes to
U+00A0. -/
def entityTable : List (List Char × Char) :=
  [("lt;".toList, '<'), ("gt;".toList, '>'), ("amp;".toList, '&'),
   ("quot;".toList, '"'), ("nbsp;".toList, Char.ofNat 160)]

/-- Try to read one named entity (the part after `&`); on success return the
decoded character and the remaining input. -/
def tryEntity : List (List Char × Char) → List Char → Option (Char × List Char)
  | [], _ => none
  | (name, ch) :: table, s =>
    if name.isPrefixOf s then some (ch, s.drop name.length)
    else tryEntity table s

/-- `html.unescape`, restricted to `entityTable`: scan for `&`, decode a known
entity in place (without rescanning the replacement), leave an unrecognized
`&` as literal text.  The fuel argument bounds the number of scanning steps;
every step consumes at least one input character, so `s.length` fuel never
runs out. -/
def unescapeF : Nat → List Char → List Char
  | 0, s => s
  | _ + 1, [] => []
  | fuel + 1, c :: rest =>
    if c = '&' then
      match tryEntity entityTable rest with
      | some (ch, rest') => ch :: unescapeF fuel rest'
      | none => c :: unescapeF fuel rest
    else c :: unescapeF fuel rest

def unescape (s : List Char) : List Char := unescapeF s.length s

/-- After the opening `<` and one non-`<` character, scan for the closing `>`
of the non-greedy match `<[^<]+?>`: the first `>` closes the tag, a `<`
aborts the match (the character class `[^<]` cannot consume it). -/
def scanClose : List Char → Option (List Char)
  | [] => none
  | c :: rest =>
    if c = '>' then some rest
    else if c = '<' then none
    else scanClose rest

/-- Given the characters after an opening `<`, return the characters after
the matching `>` of `<[^<]+?>` if the regex matches here.  The body needs at
least one character (`+`), and that character must not be `<`. -/
def findTagEnd : List Char → Option (List Char)
  | [] => none
  | c :: rest => if c = '<' then none else scanClose rest

/-- `re.sub('<[^<]+?>', '', text)`: left-to-right scan, removing each match
and continuing after it; a `<` that starts no match is kept.  Fuel as in
`unescapeF`. -/
def stripTagsF : Nat → List Char → List Char
  | 0, s => s
  | _ + 1, [] => []
  | fuel + 1, c :: rest =>
    if c = '<' then
      match findTagEnd rest with
      | some rest' => stripTagsF fuel rest'
      | none => c :: stripTagsF fuel rest
    else c :: stripTagsF fuel rest

def stripTags (s : List Char) : List Char := stripTagsF s.length s

/-- `clean_text`: `if not text: return ""`, then strip tags, decode entities,
collapse whitespace. -/
def clean_text (t : List Char) : List Char :=
  if t.isEmpty then [] else collapseWs (unescape (stripTags t))

/-- `clean_text` applied to a value that may be Python `None`
(`if not text: return ""` covers `None` as well). -/
def cleanTextOpt : Option (List Char) → List Char
  | none => []
  | some t => clean_text t

/-! ## Truncator: `smart_truncate` -/

/-- `content.rsplit(' ', 1)[0]`: the characters before the last space, or the
whole list when it contains no space. -/
def beforeLastSpace (s : List Char) : List Char :=
  match s.reverse.dropWhile (fun c => !(c == ' ')) with
  | [] => s
  | _ :: t => t.reverse

/-- Default suffix of `smart_truncate`. -/
def ellipsis : List Char := "...".toList

/-- `smart_truncate(content, length, suffix)`.  `none` models the
`IndexError` of `content[-1]` on the empty slice `content[:0]`, reachable
only for `length = 0` and non-empty input; every call in the module uses the
default `length = 160`. -/
def smart_truncate (content : List Char) (length : Nat) (suffix : List Char) :
    Option (List Char) :=
  if content.length ≤ length then some content
  else
    let c := content.take length
    match c.getLast? with
    | none => none
    | some lastCh =>
      some ((if lastCh = ' ' then c else beforeLastSpace c) ++ suffix)

/-- `smart_truncate` at its default arguments (`length=160`, `suffix='...'`),
as called by `process_single_post`; the `IndexError` case is unreachable at
length 160. -/
def truncDefault (s : List Char) : List Char :=
  (smart_truncate s 160 ellipsis).getD []

/-! ## Date reformatting: `parse_date`

`datetime.strptime(date_string, "%Y-%m-%dT%H:%M:%SZ")` then
`dt.strftime("%d %b %Y")`, returning the input unchanged on any failure.
-/

def natOfDigits (ds : List Char) : Nat :=
  ds.foldl (fun a c => 10 * a + (c.toNat - '0'.toNat)) 0

/-- One numeric field of `strptime` (`%m`, `%d`, `%H`, `%M`, `%S`): the
CPython regex for each accepts a run of one or two digits whose value lies in
the field's range; a longer digit run can never match because the literal
that follows each field in the format is a non-digit. -/
def parseField (lo hi : Nat) (s : List Char) : Option (Nat × List Char) :=
  let ds := s.takeWhile Char.isDigit
  if (ds.length = 1 ∨ ds.length = 2) ∧ lo ≤ natOfDigits ds ∧ natOfDigits ds ≤ hi
  then some (natOfDigits ds, s.dropWhile Char.isDigit)
  else none

/-- `%Y`: exactly four digits (CPython's `strptime` regex `\d\d\d\d`). -/
def parseYear (s : List Char) : Option (Nat × List Char) :=
  let ds := s.take 4
  if ds.length = 4 ∧ ds.all Char.isDigit then some (natOfDigits ds, s.drop 4)
  else none

/-- One literal character of the `strptime` format.  CPython's `_strptime`
compiles the whole format regex with `re.IGNORECASE`, so an alphabetic
literal matches either case: `T` also matches `t` and `Z` also matches `z`
(`-` and `:` are unaffected). -/
def expectCh (c : Char) : List Char → Option (List Char)
  | [] => none
  | x :: rest => if x.toLower = c.toLower then some rest else none

/-- The regex phase of `strptime(s, "%Y-%m-%dT%H:%M:%SZ")` (compiled with
`re.IGNORECASE`, see `expectCh`): the whole string must be consumed
(`unconverted data remains` is an error).  Seconds up to 61 pass the regex
(leap seconds); the `datetime` constructor rejects them in `validDateTime`
below. -/
def strptimeZ (s : List Char) : Option (Nat × Nat × Nat × Nat × Nat × Nat) := do
  let (y, s) ← parseYear s
  let s ← expectCh '-' s
  let (mo, s) ← parseField 1 12 s
  let s ← expectCh '-' s
  let (d, s) ← parseField 1 31 s
  let s ← expectCh 'T' s
  let (h, s) ← parseField 0 23 s
  let s ← expectCh ':' s
  let (mi, s) ← parseField 0 59 s
  let s ← expectCh ':' s
  let (sec, s) ← parseField 0 61 s
  let s ← expectCh 'Z' s
  if s.isEmpty then some (y, mo, d, h, mi, sec) else none

def isLeapYear (y : Nat) : Bool :=
  y % 4 = 0 && (y % 100 ≠ 0 || y % 400 = 0)

def daysInMonth (y m : Nat) : Nat :=
  if m = 2 then (if isLeapYear y then 29 else 28)
  else if m = 4 ∨ m = 6 ∨ m = 9 ∨ m = 11 then 30
  else 31

/-- The checks of the `datetime` constructor not already enforced by the
regex ranges: year at least `MINYEAR = 1` (at most 9999 is automatic for four
digits), day within the month, and no leap seconds. -/
def validDateTime : Nat × Nat × Nat × Nat × Nat × Nat → Bool
  | (y, m, d, _, _, sec) => 1 ≤ y && d ≤ daysInMonth y m && sec ≤ 59

/-- C-locale `%b`. -/
def monthAbbrev : Nat → List Char
  | 1 => "Jan".toList
  | 2 => "Feb".toList
  | 3 => "Mar".toList
  | 4 => "Apr".toList
  | 5 => "May".toList
  | 6 => "Jun".toList
  | 7 => "Jul".toList
  | 8 => "Aug".toList
  | 9 => "Sep".toList
  | 10 => "Oct".toList
  | 11 => "Nov".toList
  | _ => "Dec".toList

def natDecimal (n : Nat) : List Char := Nat.toDigits 10 n

/-- `%d`: zero-padded two-digit day. -/
def pad2 (n : Nat) : List Char :=
  if n < 10 then '0' :: natDecimal n else natDecimal n

/-- `dt.strftime("%d %b %Y")` (glibc prints `%Y` as the plain decimal year;
the parsed year has four digits). -/
def formatDisplay : Nat × Nat × Nat × Nat × Nat × Nat → List Char
  | (y, m, d, _, _, _) => pad2 d ++ ' ' :: (monthAbbrev m ++ ' ' :: natDecimal y)

/-- `parse_date`: reformat on success, return the input unchanged when either
the regex phase or the `datetime` constructor fails (the bare `except`). -/
def parse_date (s : List Char) : List Char :=
  match strptimeZ s with
  | some t => if validDateTime t then formatDisplay t else s
  | none => s

/-! ## URL Resolver: `get_real_url`

`urlparse(google_url)` followed by `parse_qs(parsed.query).get('url',
[None])[0]`; any exception (in practice `ValueError: Invalid IPv6 URL` from
`urlparse`) returns the input.  The embedding models CPython 3.11 `urllib`:
URLs are treated at byte level (a `%XX` escape decodes to the character with
that code; multi-byte UTF-8 recombination is out of scope for the
ASCII-valued claims).
-/

def hexVal (c : Char) : Option Nat :=
  if c.isDigit then some (c.toNat - '0'.toNat)
  else if 'a' ≤ c ∧ c ≤ 'f' then some (c.toNat - 'a'.toNat + 10)
  else if 'A' ≤ c ∧ c ≤ 'F' then some (c.toNat - 'A'.toNat + 10)
  else none

/-- `urllib.parse.unquote_plus`: `+` becomes a space; `%XX` with two hex
digits becomes the byte `XX`; an invalid escape keeps the `%` literally and
scanning continues with the following characters. -/
def unquotePlus : List Char → List Char
  | [] => []
  | '+' :: rest => ' ' :: unquotePlus rest
  | '%' :: h1 :: h2 :: rest =>
    match hexVal h1, hexVal h2 with
    | some a, some b => Char.ofNat (16 * a + b) :: unquotePlus rest
    | _, _ => '%' :: unquotePlus (h1 :: h2 :: rest)
  | c :: rest => c :: unquotePlus rest

/-- `urlsplit`'s input normalization: strip leading and trailing WHATWG C0
controls and spaces, then remove every tab, carriage return and line feed. -/
def normalizeUrl (s : List Char) : List Char :=
  (((s.dropWhile (fun c => c.toNat ≤ 32)).reverse.dropWhile
      (fun c => c.toNat ≤ 32)).reverse).filter
    (fun c => !(c = Char.ofNat 9 || c = Char.ofNat 10 || c = Char.ofNat 13))

def isSchemeChar (c : Char) : Bool :=
  c.isAlphanum || c = '+' || c = '-' || c = '.'

/-- Remove a leading `scheme:` when the part before the first `:` is a valid
scheme (non-empty, leading ASCII letter, scheme characters only); otherwise
return the input unchanged.  Mirrors the scheme detection of `urlsplit`. -/
def afterScheme (s : List Char) : List Char :=
  let pre := s.takeWhile (fun c => !(c == ':'))
  if pre.length < s.length then
    match pre with
    | [] => s
    | c :: cs =>
      if c.isAlpha && c.toNat < 128 && cs.all isSchemeChar
      then s.drop (pre.length + 1)
      else s
  else s

/-- The query component of `urlsplit`: the part after the first `?` of the
part before the first `#`, or empty when there is no `?`. -/
def queryOf (u : List Char) : List Char :=
  match (u.takeWhile (fun c => !(c == '#'))).dropWhile (fun c => !(c == '?')) with
  | [] => []
  | _ :: rest => rest

/-- `urlparse(url).query`, with `none` modelling the `ValueError` that
`urlsplit` raises when the netloc contains one of `[`/`]` without the other
(`Invalid IPv6 URL`). -/
def urlparse_query (s : List Char) : Option (List Char) :=
  let u := normalizeUrl s
  let rest := afterScheme u
  if rest.take 2 = ['/', '/'] then
    let netloc := (rest.drop 2).takeWhile
      (fun c => !(c = '/' || c = '?' || c = '#'))
    if (netloc.contains '[' != netloc.contains ']') then none
    else some (queryOf u)
  else some (queryOf u)

/-- `urllib.parse.parse_qsl(qs)` with default arguments: split on `&`; skip a
piece with no `=` and a piece whose value is empty (`keep_blank_values` is
false); decode names and values with `unquote_plus`. -/
def parse_qsl (q : List Char) : List (List Char × List Char) :=
  (splitP (fun c => c = '&') q).filterMap (fun nv =>
    match nv.dropWhile (fun c => !(c == '=')) with
    | [] => none
    | _ :: value =>
      if value.isEmpty then none
      else some (unquotePlus (nv.takeWhile (fun c => !(c == '='))),
                 unquotePlus value))

/-- `parse_qs(query).get('url', [None])[0]`: the value of the first pair whose
decoded name is `url`. -/
def firstUrlValue (q : List Char) : Option (List Char) :=
  ((parse_qsl q).find? (fun p => p.1 == "url".toList)).map (fun p => p.2)

/-- `get_real_url`. -/
def get_real_url (google_url : List Char) : List Char :=
  match urlparse_query google_url with
  | none => google_url
  | some q =>
    match firstUrlValue q with
    | none => google_url
    | some v => if v.isEmpty then google_url else v

/-! ## Page Enricher: `scrape_article_data`

The HTTP fetch and BeautifulSoup are the external collaborators: a fetch
either fails (any exception: timeout, network error, malformed response) or
yields a status code and a document, and the document is queried only for
`meta` tags by `property` or by the `name` attribute, returning the tag's
`content` attribute (which may itself be absent).
-/

structure MetaTag where
  property : Option (List Char)
  nameAttr : Option (List Char)
  content : Option (List Char)
deriving DecidableEq

inductive FetchResult where
  | fail
  | resp (status : Nat) (doc : List MetaTag)
deriving DecidableEq

structure ScrapedData where
  image : Option (List Char)
  description : Option (List Char)
deriving DecidableEq

/-- `soup.find("meta", property=p)`. -/
def findMetaProperty (doc : List MetaTag) (p : List Char) : Option MetaTag :=
  doc.find? (fun t => t.property == some p)

/-- `soup.find("meta", attrs={"name": n})`. -/
def findMetaName (doc : List MetaTag) (n : List Char) : Option MetaTag :=
  doc.find? (fun t => t.nameAttr == some n)

/-- `scrape_article_data(url)` given the outcome of the single GET request for
`url`.  An empty URL short-circuits; any fetch exception or a non-200 status
leaves both fields `None`; on a 200 response, the image is the `content` of
the first `og:image` meta and the description is the cleaned `content` of the
first `og:description` meta, else of the first `name="description"` meta. -/
def scrape_article_data (url : List Char) (fetch : FetchResult) : ScrapedData :=
  if url.isEmpty then ⟨none, none⟩
  else
    match fetch with
    | .fail => ⟨none, none⟩
    | .resp status doc =>
      if status = 200 then
        { image :=
            match findMetaProperty doc "og:image".toList with
            | some t => t.content
            | none => none
          description :=
            match findMetaProperty doc "og:description".toList with
            | some t => some (cleanTextOpt t.content)
            | none =>
              match findMetaName doc "description".toList with
              | some t => some (cleanTextOpt t.content)
              | none => none }
      else ⟨none, none⟩

/-! ## Entry Processor: `process_single_post` -/

/-- One feed entry as the worker reads it: `entry.title`, `entry.link`,
`entry.published` and `entry.content[0].value` (the feed snippet). -/
structure RawEntry where
  title : List Char
  link : List Char
  published : List Char
  contentValue : List Char
deriving DecidableEq

structure PostRecord where
  title : List Char
  date : List Char
  excerpt : List Char
  link : List Char
  image : List Char
deriving DecidableEq

def placeholderImage : List Char :=
  "https://placehold.co/600x400/E30613/FFFFFF?text=PSOE+News".toList

/-- `process_single_post(entry)`, with the network passed in as an oracle from
URL to fetch outcome.  Presence tests are Python truthiness: an empty
description falls back to the cleaned feed snippet, an empty image to the
placeholder. -/
def process_single_post (fetch : List Char → FetchResult) (entry : RawEntry) :
    PostRecord :=
  let real_link := get_real_url entry.link
  let scraped := scrape_article_data real_link (fetch real_link)
  { title := clean_text entry.title
    date := parse_date entry.published
    excerpt :=
      match scraped.description with
      | some d => if d.isEmpty then truncDefault (clean_text entry.contentValue)
                  else truncDefault d
      | none => truncDefault (clean_text entry.contentValue)
    link := real_link
    image :=
      match scraped.image with
      | some i => if i.isEmpty then placeholderImage else i
      | none => placeholderImage }

/-! ## Pipeline Orchestrator and Cache Layer: `get_cached_news`

`feedparser.parse` is the feed collaborator: a status and an ordered entry
list.  `ThreadPoolExecutor(max_workers=10).map` preserves input order, so the
fan-out is embedded as `List.map`.  The Django cache holds the single key
`'psoe_news'`: an optional value paired with its absolute expiry instant;
`cache.set(k, v, 900)` at time `now` stores expiry `now + 900`, and a get at
time `t` sees the value while `t < expiry`.
-/

structure Feed where
  status : Nat
  entries : List RawEntry
deriving DecidableEq

structure CacheState where
  entry : Option (List PostRecord × Nat)
deriving DecidableEq

/-- `cache.get('psoe_news')` at instant `now` (`None` when absent or
expired). -/
def cache_get (st : CacheState) (now : Nat) : Option (List PostRecord) :=
  match st.entry with
  | some (v, expiry) => if now < expiry then some v else none
  | none => none

/-- The orchestrator body: fetch the feed; any non-200 status yields the empty
list; otherwise one record per entry, in entry order. -/
def run_news_pipeline (fetch : List Char → FetchResult) (feed : Feed) :
    List PostRecord :=
  if feed.status ≠ 200 then []
  else feed.entries.map (process_single_post fetch)

/-- `get_cached_news()`: result, cache state afterwards, and how many times
the orchestrator (feed fetch plus scraping pool) ran during the call.
`if cached_data:` is a truthiness test, so a cached empty list is a miss; on
a failed feed fetch the function returns `[]` before reaching `cache.set`. -/
def get_cached_news (fetch : List Char → FetchResult) (feed : Feed)
    (st : CacheState) (now : Nat) : List PostRecord × CacheState × Nat :=
  match cache_get st now with
  | some (p :: ps) => (p :: ps, st, 0)
  | _ =>
    if feed.status ≠ 200 then ([], st, 1)
    else
      let posts := feed.entries.map (process_single_post fetch)
      (posts, ⟨some (posts, now + 900)⟩, 1)

/-! ## Definitions used to state the claims -/

/-- The destination a redirect-wrapper URL carries, in the words of the spec:
the decoded value of the first query parameter named `url`, provided parsing
succeeds and the value is non-empty. -/
def wrappedDest (s : List Char) : Option (List Char) :=
  match urlparse_query s with
  | none => none
  | some q =>
    match firstUrlValue q with
    | none => none
    | some v => if v.isEmpty then none else some v

/-- The image the spec promises for an OK response: the content of an
`og:image` meta property if present, else absent. -/
def claimImage (doc : List MetaTag) : Option (List Char) :=
  match findMetaProperty doc "og:image".toList with
  | some t => t.content
  | none => none

/-- The description the spec promises for an OK response: the normalized
content of an `og:description` meta property if present, else the normalized
content of a standard `description` meta tag if present, else absent. -/
def claimDescription (doc : List MetaTag) : Option (List Char) :=
  match findMetaProperty doc "og:description".toList with
  | some t => some (cleanTextOpt t.content)
  | none =>
    match findMetaName doc "description".toList with
    | some t => some (cleanTextOpt t.content)
    | none => none

/-- A cache miss in the sense of the code's `if cached_data:` test: the key is
absent, expired, or holds the (falsy) empty list. -/
def cacheMiss (st : CacheState) (now : Nat) : Prop :=
  cache_get st now = none ∨ cache_get st now = some []

/-- A truncation `out` of `text` ends mid-word: a letter stands immediately
before the suffix at a position where `text` has a following letter. -/
def midWordCut (text suffix out : List Char) : Prop :=
  ∃ pre c d, out = pre ++ suffix ∧ pre.getLast? = some c ∧ c.isAlpha ∧
    text.get? pre.length = some d ∧ d.isAlpha

/-! ## Helper lemmas -/

theorem dropWhile_length_le (p : Char → Bool) (l : List Char) :
    (l.dropWhile p).length ≤ l.length := by
  induction l with
  | nil => simp
  | cons a l ih =>
    by_cases hp : p a
    · simp only [List.dropWhile_cons, hp, if_true]
      exact Nat.le_trans ih (Nat.le_succ _)
    · simp [List.dropWhile_cons, hp]

theorem dropWhile_head_false (p : Char → Bool) (l : List Char) (c : Char)
    (t : List Char) (h : l.dropWhile p = c :: t) : p c = false := by
  induction l with
  | nil => simp at h
  | cons a l ih =>
    by_cases hp : p a
    · rw [List.dropWhile_cons, if_pos hp] at h
      exact ih h
    · rw [List.dropWhile_cons, if_neg hp] at h
      cases h
      exact Bool.eq_false_iff.mpr hp

theorem splitP_ne_nil (p : Char → Bool) (s : List Char) : splitP p s ≠ [] := by
  induction s with
  | nil => simp [splitP]
  | cons c rest ih =>
    by_cases hp : p c
    · simp [splitP, hp]
    · simp only [splitP, hp, if_false, Bool.false_eq_true]
      cases h : splitP p rest with
      | nil => exact absurd h ih
      | cons w ws => simp

theorem splitP_sep_not_mem (p : Char → Bool) :
    ∀ (s : List Char), ∀ w ∈ splitP p s, ∀ c ∈ w, p c = false := by
  intro s
  induction s with
  | nil =>
    intro w hw c hc
    simp [splitP] at hw
    subst hw
    simp at hc
  | cons a s ih =>
    intro w hw c hc
    by_cases hp : p a
    · rw [show splitP p (a :: s) = [] :: splitP p s by simp [splitP, hp]] at hw
      rcases List.mem_cons.mp hw with hw | hw
      · subst hw; simp at hc
      · exact ih w hw c hc
    · cases hrest : splitP p s with
      | nil => exact absurd hrest (splitP_ne_nil p s)
      | cons w0 ws =>
        rw [show splitP p (a :: s) = (a :: w0) :: ws by
              simp [splitP, hp, hrest]] at hw
        rcases List.mem_cons.mp hw with hw | hw
        · subst hw
          rcases List.mem_cons.mp hc with hc | hc
          · subst hc; exact Bool.eq_false_iff.mpr hp
          · exact ih w0 (hrest ▸ List.mem_cons_self _ _) c hc
        · exact ih w (hrest ▸ List.mem_cons_of_mem _ hw) c hc

theorem splitP_word (p : Char → Bool) (w : List Char)
    (hw : ∀ c ∈ w, p c = false) : splitP p w = [w] := by
  induction w with
  | nil => simp [splitP]
  | cons c w ih =>
    have hc : p c = false := hw c (List.mem_cons_self _ _)
    have hw' : ∀ x ∈ w, p x = false := fun x hx => hw x (List.mem_cons_of_mem _ hx)
    simp [splitP, hc, ih hw']

theorem splitP_word_append (p : Char → Bool) (sep : Char) (w rest : List Char)
    (hw : ∀ c ∈ w, p c = false) (hsep : p sep = true) :
    splitP p (w ++ sep :: rest) = w :: splitP p rest := by
  induction w with
  | nil => simp [splitP, hsep]
  | cons c w ih =>
    have hc : p c = false := hw c (List.mem_cons_self _ _)
    have hw' : ∀ x ∈ w, p x = false := fun x hx => hw x (List.mem_cons_of_mem _ hx)
    simp only [List.cons_append, splitP, hc, Bool.false_eq_true, if_false,
      List.append_eq]
    rw [ih hw']

theorem splitWs_roundtrip :
    ∀ ws : List (List Char), (∀ w ∈ ws, w ≠ []) →
      (∀ w ∈ ws, ∀ c ∈ w, isSpaceCh c = false) →
      splitWs (joinSep ' ' ws) = ws := by
  intro ws
  induction ws with
  | nil => intro _ _; rfl
  | cons w ws ih =>
    intro h1 h2
    have hw1 : w ≠ [] := h1 w (List.mem_cons_self _ _)
    have hw2 : ∀ c ∈ w, isSpaceCh c = false := h2 w (List.mem_cons_self _ _)
    cases ws with
    | nil =>
      show splitWs (joinSep ' ' [w]) = [w]
      unfold splitWs
      rw [show joinSep ' ' [w] = w from rfl, splitP_word isSpaceCh w hw2]
      simp [hw1]
    | cons w2 t =>
      have hj : joinSep ' ' (w :: w2 :: t) = w ++ ' ' :: joinSep ' ' (w2 :: t) := rfl
      unfold splitWs
      rw [hj, splitP_word_append isSpaceCh ' ' w _ hw2 (by decide)]
      rw [List.filter_cons_of_pos (by simpa using hw1)]
      have ih' := ih (fun x hx => h1 x (List.mem_cons_of_mem _ hx))
        (fun x hx => h2 x (List.mem_cons_of_mem _ hx))
      unfold splitWs at ih'
      rw [ih']

theorem collapseWs_words_nonempty (s : List Char) :
    ∀ w ∈ splitWs s, w ≠ [] := by
  intro w hw
  have := (List.mem_filter.mp hw).2
  simpa using this

theorem collapseWs_words_nonspace (s : List Char) :
    ∀ w ∈ splitWs s, ∀ c ∈ w, isSpaceCh c = false := by
  intro w hw
  exact splitP_sep_not_mem isSpaceCh s w (List.mem_filter.mp hw).1

theorem collapseWs_idem (s : List Char) : collapseWs (collapseWs s) = collapseWs s := by
  unfold collapseWs
  rw [show splitWs (joinSep ' ' (splitWs s)) = splitWs s from
    splitWs_roundtrip (splitWs s) (collapseWs_words_nonempty s)
      (collapseWs_words_nonspace s)]

theorem stripTagsF_eq_of_not_mem :
    ∀ (n : Nat) (s : List Char), '<' ∉ s → stripTagsF n s = s := by
  intro n
  induction n with
  | zero => intro s _; rfl
  | succ n ih =>
    intro s hs
    cases s with
    | nil => rfl
    | cons c rest =>
      have hc : ¬ c = '<' := fun he => hs (he ▸ List.mem_cons_self _ _)
      have hrest : '<' ∉ rest := fun hm => hs (List.mem_cons_of_mem _ hm)
      simp only [stripTagsF, hc, if_false]
      rw [ih rest hrest]

theorem stripTags_eq_of_not_mem (s : List Char) (h : '<' ∉ s) :
    stripTags s = s :=
  stripTagsF_eq_of_not_mem s.length s h

theorem unescapeF_eq_of_not_mem :
    ∀ (n : Nat) (s : List Char), '&' ∉ s → unescapeF n s = s := by
  intro n
  induction n with
  | zero => intro s _; rfl
  | succ n ih =>
    intro s hs
    cases s with
    | nil => rfl
    | cons c rest =>
      have hc : ¬ c = '&' := fun he => hs (he ▸ List.mem_cons_self _ _)
      have hrest : '&' ∉ rest := fun hm => hs (List.mem_cons_of_mem _ hm)
      simp only [unescapeF, hc, if_false]
      rw [ih rest hrest]

theorem unescape_eq_of_not_mem (s : List Char) (h : '&' ∉ s) :
    unescape s = s :=
  unescapeF_eq_of_not_mem s.length s h

theorem beforeLastSpace_eq_of_not_mem (s : List Char) (h : ' ' ∉ s) :
    beforeLastSpace s = s := by
  have hd : s.reverse.dropWhile (fun c => !(c == ' ')) = [] := by
    rw [List.dropWhile_eq_nil_iff]
    intro x hx
    have hxs : x ∈ s := List.mem_reverse.mp hx
    have : ¬ x = ' ' := fun he => h (he ▸ hxs)
    simpa using this
  unfold beforeLastSpace
  rw [hd]

theorem beforeLastSpace_split (s : List Char) (h : ' ' ∈ s) :
    ∃ rest, s = beforeLastSpace s ++ ' ' :: rest := by
  have hd : s.reverse.dropWhile (fun c => !(c == ' ')) ≠ [] := by
    intro he
    rw [List.dropWhile_eq_nil_iff] at he
    have := he ' ' (List.mem_reverse.mpr h)
    simp at this
  cases ht : s.reverse.dropWhile (fun c => !(c == ' ')) with
  | nil => exact absurd ht hd
  | cons c t =>
    have hc : (fun c => !(c == ' ')) c = false :=
      dropWhile_head_false _ s.reverse c t ht
    have hc' : c = ' ' := by simpa using hc
    set tw := s.reverse.takeWhile (fun c => !(c == ' ')) with htw
    have hsplit : tw ++ (c :: t) = s.reverse := by
      rw [htw, ← ht]; exact List.takeWhile_append_dropWhile _ _
    have hb : beforeLastSpace s = t.reverse := by
      unfold beforeLastSpace
      rw [ht]
    refine ⟨tw.reverse, ?_⟩
    rw [hb]
    have hrev := congrArg List.reverse hsplit
    rw [List.reverse_reverse, List.reverse_append, List.reverse_cons] at hrev
    rw [← hrev, hc']
    simp

theorem beforeLastSpace_length_le (s : List Char) :
    (beforeLastSpace s).length ≤ s.length := by
  unfold beforeLastSpace
  cases ht : s.reverse.dropWhile (fun c => !(c == ' ')) with
  | nil => exact Nat.le_refl _
  | cons c t =>
    have h1 : (c :: t).length ≤ s.reverse.length := by
      rw [← ht]; exact dropWhile_length_le _ _
    rw [List.length_reverse] at h1
    rw [List.length_reverse]
    simp only [List.length_cons] at h1
    omega

/-! ## Claim theorems -/

/-- C8: for every input URL carrying a non-empty destination in a query
parameter named `url`, `get_real_url` returns that decoded destination; for
every other input (no `url` parameter, empty value, or malformed string that
makes `urlparse` raise) it returns the original input unchanged — and, being
total, it never raises. -/
theorem url_resolver_contract (s : List Char) :
    (∀ d, wrappedDest s = some d → get_real_url s = d)
    ∧ (wrappedDest s = none → get_real_url s = s) := by
  cases hq : urlparse_query s with
  | none =>
    refine ⟨fun d hd => ?_, fun _ => ?_⟩
    · simp [wrappedDest, hq] at hd
    · simp [get_real_url, hq]
  | some q =>
    cases hv : firstUrlValue q with
    | none =>
      refine ⟨fun d hd => ?_, fun _ => ?_⟩
      · simp [wrappedDest, hq, hv] at hd
      · simp [get_real_url, hq, hv]
    | some v =>
      by_cases hve : v.isEmpty = true
      · refine ⟨fun d hd => ?_, fun _ => ?_⟩
        · simp [wrappedDest, hq, hv, hve] at hd
        · simp [get_real_url, hq, hv, hve]
      · refine ⟨fun d hd => ?_, fun h => ?_⟩
        · simp [wrappedDest, hq, hv, hve] at hd
          subst hd
          simp [get_real_url, hq, hv, hve]
        · simp [wrappedDest, hq, hv, hve] at h

/-- C8 witness: the spec's redirect-wrapper example decodes, a plain URL and
a malformed URL (unbalanced bracket netloc) pass through unchanged. -/
theorem url_resolver_contract_witness :
    get_real_url "https://alerts.example/r?url=https%3A%2F%2Fnews.example%2Fa".toList
      = "https://news.example/a".toList
    ∧ get_real_url "https://news.example/plain".toList
      = "https://news.example/plain".toList
    ∧ get_real_url "http://[?url=x".toList = "http://[?url=x".toList :=
  ⟨(url_resolver_contract _).1 _ (by decide),
   (url_resolver_contract _).2 (by decide),
   (url_resolver_contract _).2 (by decide)⟩

/-- C4: for every URL whose fetch fails (any exception: network error,
timeout, malformed response) or returns a non-OK status,
`scrape_article_data` yields `ScrapedData` with both fields absent, and —
being total — no exception propagates; on an OK (200) response the image and
description are exactly the spec's priority extraction (`claimImage`,
`claimDescription`). -/
theorem scrape_contract (url : List Char) (fetch : FetchResult) :
    (fetch = FetchResult.fail → scrape_article_data url fetch = ⟨none, none⟩)
    ∧ (∀ status doc, fetch = FetchResult.resp status doc → status ≠ 200 →
        scrape_article_data url fetch = ⟨none, none⟩)
    ∧ (∀ doc, url.isEmpty = false → fetch = FetchResult.resp 200 doc →
        scrape_article_data url fetch = ⟨claimImage doc, claimDescription doc⟩) := by
  refine ⟨fun hf => ?_, fun status doc hf hs => ?_, fun doc hu hf => ?_⟩
  · subst hf
    by_cases hu : url.isEmpty = true <;> simp [scrape_article_data, hu]
  · subst hf
    by_cases hu : url.isEmpty = true <;> simp [scrape_article_data, hu, hs]
  · subst hf
    simp only [scrape_article_data, hu, Bool.false_eq_true, if_false,
      if_pos rfl]
    unfold claimImage claimDescription
    cases findMetaProperty doc "og:image".toList <;>
      cases findMetaProperty doc "og:description".toList <;>
      cases findMetaName doc "description".toList <;> rfl

/-- C4 witness: a failed fetch and a 404 yield both-absent; a 200 response
with `og:image` and `og:description` metas yields the extracted pair. -/
theorem scrape_contract_witness :
    scrape_article_data "u".toList FetchResult.fail = ⟨none, none⟩
    ∧ scrape_article_data "u".toList (FetchResult.resp 404 []) = ⟨none, none⟩
    ∧ scrape_article_data "u".toList (FetchResult.resp 200
        [⟨some "og:image".toList, none, some "http://img".toList⟩,
         ⟨some "og:description".toList, none, some " A &amp; B ".toList⟩])
      = ⟨claimImage
           [⟨some "og:image".toList, none, some "http://img".toList⟩,
            ⟨some "og:description".toList, none, some " A &amp; B ".toList⟩],
         claimDescription
           [⟨some "og:image".toList, none, some "http://img".toList⟩,
            ⟨some "og:description".toList, none, some " A &amp; B ".toList⟩]⟩ :=
  ⟨(scrape_contract _ _).1 rfl,
   (scrape_contract _ _).2.1 404 [] rfl (by decide),
   (scrape_contract _ _).2.2 _ (by decide) rfl⟩

/-- C2: if the feed reports a non-success status the orchestrator's result is
the empty sequence (and no exception reaches the consumer — the embedding is
total); otherwise there is exactly one record per raw entry and the record at
output position `i` is the Entry Processor's result for the entry at input
position `i` — `executor.map` yields results in input order, embedded as
`List.map`. -/
theorem pipeline_order_contract (fetch : List Char → FetchResult) (feed : Feed) :
    (feed.status ≠ 200 → run_news_pipeline fetch feed = [])
    ∧ (feed.status = 200 →
        (run_news_pipeline fetch feed).length = feed.entries.length
        ∧ ∀ i : Nat, (run_news_pipeline fetch feed).get? i =
            (feed.entries.get? i).map (process_single_post fetch)) := by
  simp only [List.get?_eq_getElem?]
  refine ⟨fun hs => ?_, fun hs => ⟨?_, fun i => ?_⟩⟩
  · simp [run_news_pipeline, hs]
  · simp [run_news_pipeline, hs]
  · simp [run_news_pipeline, hs, List.getElem?_map]

/-- C2 witness: a failing feed yields `[]`; a two-entry feed yields two
records, each position mapped through the Entry Processor. -/
theorem pipeline_order_contract_witness :
    run_news_pipeline (fun _ => FetchResult.fail) ⟨500, [⟨[], [], [], []⟩]⟩ = []
    ∧ (run_news_pipeline (fun _ => FetchResult.fail)
        ⟨200, [⟨"a".toList, [], [], []⟩, ⟨"b".toList, [], [], []⟩]⟩).length = 2
    ∧ ∀ i : Nat, (run_news_pipeline (fun _ => FetchResult.fail)
        ⟨200, [⟨"a".toList, [], [], []⟩, ⟨"b".toList, [], [], []⟩]⟩).get? i =
        (([⟨"a".toList, [], [], []⟩, ⟨"b".toList, [], [], []⟩] :
            List RawEntry).get? i).map
          (process_single_post (fun _ => FetchResult.fail)) :=
  ⟨(pipeline_order_contract _ _).1 (by decide),
   ((pipeline_order_contract _ _).2 rfl).1,
   ((pipeline_order_contract _ _).2 rfl).2⟩

/-- C1 (amended): a get immediately following a set of a NON-EMPTY post list
within the TTL window returns the exact stored list with no orchestrator run;
a get on a miss (key absent, expired, or holding the falsy empty list)
triggers exactly one orchestrator run whose result is returned, and is stored
with the TTL only when the feed fetch succeeds — a failed fetch returns `[]`
leaving the cache unchanged. -/
theorem cache_layer_contract (fetch : List Char → FetchResult) (feed : Feed)
    (st : CacheState) (now : Nat) :
    (∀ v expiry, st.entry = some (v, expiry) → now < expiry → v ≠ [] →
        get_cached_news fetch feed st now = (v, st, 0))
    ∧ (cacheMiss st now →
        get_cached_news fetch feed st now =
          (run_news_pipeline fetch feed,
           if feed.status = 200
           then ⟨some (run_news_pipeline fetch feed, now + 900)⟩ else st,
           1)) := by
  constructor
  · intro v expiry hst hnow hne
    have hv : cache_get st now = some v := by simp [cache_get, hst, hnow]
    cases v with
    | nil => exact absurd rfl hne
    | cons p ps => simp [get_cached_news, hv]
  · intro hmiss
    by_cases hs : feed.status = 200
    · rcases hmiss with hmiss | hmiss <;>
        simp [get_cached_news, hmiss, run_news_pipeline, hs]
    · rcases hmiss with hmiss | hmiss <;>
        simp [get_cached_news, hmiss, run_news_pipeline, hs]

/-- C1 counterexample: the claim as stated fails in both directions.  With a
stored EMPTY list still inside its TTL window, a get re-runs the orchestrator
(run count 1, not 0); and on a miss with a failing feed, the run's result is
returned but NOT stored (the cache stays empty), contradicting "whose result
is stored". -/
theorem cache_layer_claim_false :
    (get_cached_news (fun _ => FetchResult.fail) ⟨200, []⟩
        ⟨some ([], 900)⟩ 0).2.2 = 1
    ∧ get_cached_news (fun _ => FetchResult.fail) ⟨500, []⟩ ⟨none⟩ 0
        = ([], ⟨none⟩, 1) := by
  exact ⟨rfl, rfl⟩

/-- C1 witness: a stored non-empty list is served unchanged with no
orchestrator run; a miss with a failing feed runs the orchestrator once and
stores nothing. -/
theorem cache_layer_contract_witness :
    get_cached_news (fun _ => FetchResult.fail) ⟨500, []⟩
        ⟨some ([⟨[], [], [], [], []⟩], 900)⟩ 10
      = ([⟨[], [], [], [], []⟩], ⟨some ([⟨[], [], [], [], []⟩], 900)⟩, 0)
    ∧ get_cached_news (fun _ => FetchResult.fail) ⟨500, []⟩ ⟨none⟩ 0
        = (run_news_pipeline (fun _ => FetchResult.fail) ⟨500, []⟩, ⟨none⟩, 1) := by
  constructor
  · exact (cache_layer_contract _ _ _ _).1 [⟨[], [], [], [], []⟩] 900 rfl
      (by decide) (by decide)
  · have h := (cache_layer_contract (fun _ => FetchResult.fail) ⟨500, []⟩
      ⟨none⟩ 0).2 (Or.inl rfl)
    simpa using h

/-- C10: the empty post list never behaves as a cached value — on a failed
feed fetch `get_cached_news` returns `[]` without storing it; a stored empty
list is treated as a miss (truthiness), so the pipeline re-runs even inside
the TTL window; and every list served from a cache hit (run count 0) is
non-empty. -/
theorem empty_list_never_cached (fetch : List Char → FetchResult) (feed : Feed)
    (st : CacheState) (now : Nat) :
    (feed.status ≠ 200 → cacheMiss st now →
        get_cached_news fetch feed st now = ([], st, 1))
    ∧ (∀ expiry, st.entry = some ([], expiry) →
        (get_cached_news fetch feed st now).2.2 = 1)
    ∧ ((get_cached_news fetch feed st now).2.2 = 0 →
        (get_cached_news fetch feed st now).1 ≠ []) := by
  refine ⟨fun hs hmiss => ?_, fun expiry hst => ?_, fun hrun => ?_⟩
  · rcases hmiss with hmiss | hmiss <;> simp [get_cached_news, hmiss, hs]
  · by_cases hnow : now < expiry
    · have hv : cache_get st now = some [] := by simp [cache_get, hst, hnow]
      by_cases hs : feed.status = 200 <;> simp [get_cached_news, hv, hs]
    · have hv : cache_get st now = none := by simp [cache_get, hst, hnow]
      by_cases hs : feed.status = 200 <;> simp [get_cached_news, hv, hs]
  · cases hv : cache_get st now with
    | none =>
      by_cases hs : feed.status = 200 <;>
        simp [get_cached_news, hv, hs] at hrun
    | some v =>
      cases v with
      | nil =>
        by_cases hs : feed.status = 200 <;>
          simp [get_cached_news, hv, hs] at hrun
      | cons p ps => simp [get_cached_news, hv]

/-- C10 witness: failed fetch on an empty cache returns `[]` unstored; a
stored empty list inside its TTL re-runs the pipeline; a hit is non-empty. -/
theorem empty_list_never_cached_witness :
    get_cached_news (fun _ => FetchResult.fail) ⟨500, []⟩ ⟨none⟩ 3
      = ([], ⟨none⟩, 1)
    ∧ (get_cached_news (fun _ => FetchResult.fail) ⟨200, []⟩
        ⟨some ([], 900)⟩ 5).2.2 = 1
    ∧ (get_cached_news (fun _ => FetchResult.fail) ⟨200, []⟩
        ⟨some ([⟨[], [], [], [], []⟩], 900)⟩ 5).1 ≠ [] :=
  ⟨(empty_list_never_cached _ _ _ _).1 (by decide) (Or.inl rfl),
   (empty_list_never_cached _ _ _ _).2.1 900 rfl,
   (empty_list_never_cached _ _ _ _).2.2 rfl⟩

/-- C3: for every raw entry whose Page Enricher result has both the image and
the description absent, the resulting record's image is the fixed placeholder
URL and its excerpt is the truncation of the normalized feed content snippet
(the feed's own snippet, not the scraped page). -/
theorem entry_fallback (fetch : List Char → FetchResult) (entry : RawEntry)
    (h : scrape_article_data (get_real_url entry.link)
           (fetch (get_real_url entry.link)) = ⟨none, none⟩) :
    (process_single_post fetch entry).image = placeholderImage
    ∧ (process_single_post fetch entry).excerpt
        = truncDefault (clean_text entry.contentValue) := by
  constructor <;> simp [process_single_post, h]

/-- C3 witness: an entry whose page fetch fails gets the placeholder image
and a feed-snippet excerpt. -/
theorem entry_fallback_witness :
    (process_single_post (fun _ => FetchResult.fail)
        ⟨"t".toList, "x".toList, "d".toList, "s".toList⟩).image = placeholderImage
    ∧ (process_single_post (fun _ => FetchResult.fail)
        ⟨"t".toList, "x".toList, "d".toList, "s".toList⟩).excerpt
        = truncDefault (clean_text "s".toList) :=
  entry_fallback (fun _ => FetchResult.fail)
    ⟨"t".toList, "x".toList, "d".toList, "s".toList⟩ (by decide)

set_option maxRecDepth 4096 in
/-- C5 counterexample: for a 161-character input with no space at all, the
result is NOT the bare suffix (empty string before the suffix), as the claim
states; `rsplit(' ', 1)[0]` returns the whole string when it contains no
separator. -/
theorem truncate_no_space_claim_false :
    smart_truncate (List.replicate 161 'a') 160 ellipsis
        = some (List.replicate 160 'a' ++ ellipsis)
    ∧ smart_truncate (List.replicate 161 'a') 160 ellipsis ≠ some ellipsis := by
  decide

/-- C5 (amended): for every input longer than the default limit whose first
160 characters contain no space, the result is the first 160 characters
followed by the suffix — the back-up-to-a-space step removes nothing because
`rsplit` on a separator-free string returns it whole. -/
theorem truncate_no_space_first160 (content suffix : List Char)
    (h1 : 160 < content.length)
    (h2 : ∀ c ∈ content.take 160, c ≠ ' ') :
    smart_truncate content 160 suffix = some (content.take 160 ++ suffix) := by
  have hlen : (content.take 160).length = 160 := by
    rw [List.length_take]; omega
  have hne : content.take 160 ≠ [] := by
    intro he; rw [he] at hlen; simp at hlen
  cases hl : (content.take 160).getLast? with
  | none => exact absurd (List.getLast?_eq_none_iff.mp hl) hne
  | some lastCh =>
    have hmem : lastCh ∈ content.take 160 := List.mem_of_mem_getLast? hl
    have hlsp : ¬ lastCh = ' ' := h2 lastCh hmem
    have hnosp : ' ' ∉ content.take 160 := fun hm => h2 ' ' hm rfl
    unfold smart_truncate
    rw [if_neg (by omega)]
    simp only [hl, hlsp, if_false, beforeLastSpace_eq_of_not_mem _ hnosp]

set_option maxRecDepth 4096 in
/-- C5 witness: a concrete space-free 161-character input keeps its first 160
characters before the suffix. -/
theorem truncate_no_space_first160_witness :
    smart_truncate (List.replicate 161 'b') 160 ellipsis
      = some ((List.replicate 161 'b').take 160 ++ ellipsis) :=
  truncate_no_space_first160 _ _ (by decide) (by decide)

set_option maxRecDepth 4096 in
/-- C6 counterexample: the "never ends mid-word" part of the claim fails — on
a space-free input, the output cuts the word: a letter stands right before
the suffix while the original text continues with a letter. -/
theorem truncate_midword_example :
    smart_truncate (List.replicate 161 'c') 160 ellipsis
        = some (List.replicate 160 'c' ++ ellipsis)
    ∧ midWordCut (List.replicate 161 'c') ellipsis
        (List.replicate 160 'c' ++ ellipsis) := by
  refine ⟨by decide, List.replicate 160 'c', 'c', 'c', rfl, by decide, by decide,
    by decide, by decide⟩

/-- C6 (amended): for every text no longer than the limit the output is the
input unchanged; every returned output has length at most
`length + len(suffix)`; and a truncated output never ends mid-word PROVIDED
the truncated segment contains at least one space (the space-free case of the
counterexample is the sole exception). -/
theorem smart_truncate_contract :
    (∀ content length suffix, content.length ≤ length →
        smart_truncate content length suffix = some content)
    ∧ (∀ content length suffix out,
        smart_truncate content length suffix = some out →
        out.length ≤ length + suffix.length)
    ∧ (∀ content length suffix out,
        smart_truncate content length suffix = some out →
        length < content.length → ' ' ∈ content.take length →
        ¬ midWordCut content suffix out) := by
  refine ⟨fun content length suffix h => ?_,
    fun content length suffix out h => ?_,
    fun content length suffix out h hlt hsp hmid => ?_⟩
  · simp [smart_truncate, h]
  · by_cases hle : content.length ≤ length
    · rw [smart_truncate, if_pos hle] at h
      cases h
      omega
    · rw [smart_truncate, if_neg hle] at h
      cases hl : (content.take length).getLast? with
      | none =>
        simp only [hl] at h
        exact Option.noConfusion h
      | some lastCh =>
        simp only [hl] at h
        cases h
        have htake : (content.take length).length = length := by
          rw [List.length_take]; omega
        by_cases hlsp : lastCh = ' '
        · simp only [hlsp, if_true, List.length_append]
          omega
        · simp only [hlsp, if_false, List.length_append]
          have := beforeLastSpace_length_le (content.take length)
          omega
  · rcases hmid with ⟨pre, ch, d, hpre, hlast, halpha, hget, dalpha⟩
    rw [smart_truncate, if_neg (by omega)] at h
    cases hl : (content.take length).getLast? with
    | none =>
      simp only [hl] at h
      exact Option.noConfusion h
    | some lastCh =>
      simp only [hl] at h
      cases h
      have hpre_eq : pre = if lastCh = ' ' then content.take length
          else beforeLastSpace (content.take length) :=
        List.append_cancel_right (hpre.symm)
      by_cases hlsp : lastCh = ' '
      · rw [if_pos hlsp] at hpre_eq
        rw [hpre_eq] at hlast
        rw [hl] at hlast
        cases hlast
        rw [hlsp] at halpha
        simp at halpha
      · rw [if_neg hlsp] at hpre_eq
        obtain ⟨rest, hdec⟩ := beforeLastSpace_split (content.take length) hsp
        have hcontent : content = pre ++ ' ' :: (rest ++ content.drop length) := by
          rw [hpre_eq, ← List.cons_append, ← List.append_assoc, ← hdec,
            List.take_append_drop]
        rw [hcontent] at hget
        rw [List.get?_eq_getElem?, List.getElem?_append_right (Nat.le_refl _)] at hget
        simp at hget
        rw [← hget] at dalpha
        simp at dalpha

/-- C7 counterexample: on an input containing both markup tags and HTML
entities, the output of `clean_text` contains a literal angle-bracket pair
(entity decoding manufactures a tag after tag stripping already ran), and
normalizing again changes the result — so `clean_text` is not idempotent. -/
theorem clean_text_idem_false :
    '<' ∈ clean_text "<i>x</i> &lt;b&gt;".toList
    ∧ '>' ∈ clean_text "<i>x</i> &lt;b&gt;".toList
    ∧ clean_text (clean_text "<i>x</i> &lt;b&gt;".toList)
        ≠ clean_text "<i>x</i> &lt;b&gt;".toList := by
  decide

/-- C7 (amended): `clean_text` is idempotent on every input whose normalized
output contains no `<` and no `&` — then a second pass strips no tag, decodes
no entity, and whitespace collapsing is idempotent.  In general the output
may contain literal angle brackets and further decodable entities when entity
decoding introduces them. -/
theorem clean_text_idem (s : List Char) (h1 : '<' ∉ clean_text s)
    (h2 : '&' ∉ clean_text s) :
    clean_text (clean_text s) = clean_text s := by
  by_cases hs : s.isEmpty = true
  · simp [clean_text, hs]
  · have hu : clean_text s = collapseWs (unescape (stripTags s)) := by
      simp [clean_text, hs]
    by_cases he : (clean_text s).isEmpty = true
    · have : clean_text s = [] := by
        cases hcl : clean_text s with
        | nil => rfl
        | cons a l => rw [hcl] at he; simp at he
      rw [this]
      rfl
    · calc clean_text (clean_text s)
          = collapseWs (unescape (stripTags (clean_text s))) := by
            rw [clean_text, if_neg he]
        _ = collapseWs (clean_text s) := by
            rw [stripTags_eq_of_not_mem _ h1, unescape_eq_of_not_mem _ h2]
        _ = clean_text s := by
            rw [hu, collapseWs_idem]

/-- C7 witness: a tagged, entity-bearing input whose normal form is plain
text is a fixed point of a second normalization. -/
theorem clean_text_idem_witness :
    clean_text (clean_text "<i>hi</i>  there &quot;friend&quot;".toList)
      = clean_text "<i>hi</i>  there &quot;friend&quot;".toList :=
  clean_text_idem _ (by decide) (by decide)

/-- C6 witness: a short input passes through; a concrete truncation respects
the length bound; a truncation whose segment contains a space does not end
mid-word. -/
theorem smart_truncate_contract_witness :
    smart_truncate "hi".toList 160 ellipsis = some "hi".toList
    ∧ ("aa...".toList).length ≤ 4 + ellipsis.length
    ∧ ¬ midWordCut "aa bb".toList ellipsis "aa...".toList :=
  ⟨smart_truncate_contract.1 "hi".toList 160 ellipsis (by decide),
   smart_truncate_contract.2.1 "aa bb".toList 4 ellipsis "aa...".toList (by decide),
   smart_truncate_contract.2.2 "aa bb".toList 4 ellipsis "aa...".toList
     (by decide) (by decide) (by decide)⟩
